import Mathlib

/-!
Verification of the Rummikub engine (deck construction, set validation,
scoring, hand sorting, and the automated player) against its specification.
The definitions below are a shallow embedding of the TypeScript source:
tile numbers are modelled as `Int` (JS numbers are exact integers in the
relevant range), JS `Array.prototype.sort` (stable) is modelled by
a stable insertion sort by the comparator-derived order (a stable sort
of a total preorder has a unique result), and the
Fisher-Yates shuffle is parameterised by the stream of random draws.
-/

namespace Rummikub

inductive TileColor where
  | Red
  | Blue
  | Orange
  | Black
  | Joker
deriving DecidableEq, Repr

structure Tile where
  id : String
  number : Int
  color : TileColor
  isJoker : Bool
deriving DecidableEq, Repr

abbrev TileSet := List Tile

def colorName : TileColor → String
  | .Red => "Red"
  | .Blue => "Blue"
  | .Orange => "Orange"
  | .Black => "Black"
  | .Joker => "Joker"

/-- The fixed color iteration order used by `createDeck` and the run pass. -/
def fourColors : List TileColor := [.Red, .Blue, .Orange, .Black]

/-- The unshuffled deck built by the nested loops of `createDeck`:
two copies (outer loop `set = 0, 1`) of each color and number 1..13,
then the two jokers. -/
def baseDeck : List Tile :=
  ((List.range 2).flatMap fun k =>
    fourColors.flatMap fun c =>
      (List.range 13).map fun n =>
        { id := colorName c ++ "-" ++ toString (n + 1) ++ "-" ++ toString k
          number := (n : Int) + 1
          color := c
          isJoker := false })
  ++ [{ id := "joker-1", number := 0, color := .Joker, isJoker := true },
      { id := "joker-2", number := 0, color := .Joker, isJoker := true }]

/-- One Fisher-Yates step: simultaneous swap of positions `i` and `j`
(the JS destructuring assignment). Out-of-range indices leave the list
unchanged; inside `shuffle` both indices are always in range. -/
def swapNth (l : List α) (i j : Nat) : List α :=
  match l.get? i, l.get? j with
  | some a, some b => (l.set i b).set j a
  | _, _ => l

/-- The Fisher-Yates loop, `for (let i = n-1; i > 0; i--)`, with the random
draw at index `i` modelled as `rand i % (i+1)` (JS draws
`Math.floor(Math.random() * (i + 1))`, a value in `[0, i]`). -/
def shuffleAux (rand : Nat → Nat) : Nat → List α → List α
  | 0, l => l
  | i + 1, l => shuffleAux rand i (swapNth l (i + 1) (rand (i + 1) % (i + 2)))

def shuffle (rand : Nat → Nat) (l : List α) : List α :=
  shuffleAux rand (l.length - 1) l

def createDeck (rand : Nat → Nat) : List Tile :=
  shuffle rand baseDeck

/-- The two sort keys accepted by `sortHand`. -/
inductive SortKey where
  | number
  | color
deriving DecidableEq, Repr

/-- Rank of a color name in collation order (`localeCompare` on the enum
strings Red, Blue, Orange, Black, Joker sorts Black < Blue < Joker <
Orange < Red, which is also plain lexicographic order on the names). -/
def colorRank : TileColor → Int
  | .Black => 0
  | .Blue => 1
  | .Joker => 2
  | .Orange => 3
  | .Red => 4

/-- The comparator passed to `Array.prototype.sort` by `sortHand`; only
its sign matters. Jokers sort after everything, then primary/secondary
keys as selected. -/
def tileCmp (key : SortKey) (a b : Tile) : Int :=
  if a.isJoker && !b.isJoker then 1
  else if !a.isJoker && b.isJoker then -1
  else if a.isJoker && b.isJoker then 0
  else if key = .number then
    if a.number ≠ b.number then a.number - b.number
    else colorRank a.color - colorRank b.color
  else
    if a.color ≠ b.color then colorRank a.color - colorRank b.color
    else a.number - b.number

/-- The order induced by the `sortHand` comparator: `a` may come before
`b` exactly when the comparator is nonpositive. -/
def sortRel (key : SortKey) (a b : Tile) : Prop :=
  tileCmp key a b ≤ 0

instance (key : SortKey) : DecidableRel (sortRel key) := fun a b =>
  inferInstanceAs (Decidable (tileCmp key a b ≤ 0))

/-- JS `Array.prototype.sort` is a stable sort by the comparator; a stable
sort of a total preorder has a unique result, modelled here by insertion
sort (kernel-computable, unlike mergeSort). -/
def sortHand (hand : List Tile) (key : SortKey) : List Tile :=
  hand.insertionSort (sortRel key)

/-- Order on tiles by number, used for the internal re-sorts
`sort((a, b) => a.number - b.number)` of run detection and scoring. -/
def numLe (a b : Tile) : Prop :=
  a.number ≤ b.number

instance : DecidableRel numLe := fun a b =>
  inferInstanceAs (Decidable (a.number ≤ b.number))

instance : IsTotal Tile numLe :=
  ⟨fun a b => le_total a.number b.number⟩

instance : IsTrans Tile numLe :=
  ⟨fun _ _ _ hab hbc => le_trans hab hbc⟩

/-- The group-check loop of `isValidSet`: walk the whole set, skipping
jokers, requiring every non-joker to carry the number `num` and a color
not seen before (`seen` is the accumulated color set). -/
def groupCheck : List Tile → Int → List TileColor → Bool
  | [], _, _ => true
  | t :: ts, num, seen =>
    if t.isJoker then groupCheck ts num seen
    else if t.number ≠ num then false
    else if seen.contains t.color then false
    else groupCheck ts num (t.color :: seen)

/-- Adjacent-duplicate test on the sorted number list (the loop that
rejects two equal consecutive numbers in the run check). -/
def hasAdjDup : List Int → Bool
  | a :: b :: rest => a == b || hasAdjDup (b :: rest)
  | _ => false

def isValidSet (s : TileSet) : Bool :=
  if s.length < 3 then false
  else
    let nonJokers := s.filter fun t => !t.isJoker
    match nonJokers with
    | [] => decide (s.length ≤ 4)
    | t0 :: _ =>
      let isGroup :=
        if 4 < s.length then false
        else groupCheck s t0.number []
      let isRun :=
        if 13 < s.length then false
        else if nonJokers.any fun t => !(t.color == t0.color) then false
        else
          let sorted := nonJokers.insertionSort numLe
          if hasAdjDup (sorted.map (·.number)) then false
          else
            let minN := ((sorted.head?).getD t0).number
            let maxN := ((sorted.getLast?).getD t0).number
            let len : Int := s.length
            if len < maxN - minN + 1 then false
            else decide (max 1 (maxN - len + 1) ≤ min (13 - len + 1) minN)
      isGroup || isRun

/-- Internal gap sum of the run scorer: over consecutive sorted numbers,
add `next - current - 1`. -/
def gapSum : List Int → Int
  | a :: b :: rest => (b - a - 1) + gapSum (b :: rest)
  | _ => 0

/-- Scoring. The run branch computes `(size / 2) * (2 * start + size - 1)`
in JS float arithmetic; the product `size * (2 * start + size - 1)` is
always even, so the value is the exact integer `size * (2*start+size-1) / 2`. -/
def calculateSetPoints (s : TileSet) : Int :=
  let nonJokers := s.filter fun t => !t.isJoker
  match nonJokers with
  | [] => 0
  | t0 :: _ =>
    let isGroup := nonJokers.all fun t => !t.isJoker && t.number == t0.number
    if isGroup then t0.number * s.length
    else
      let sorted := nonJokers.insertionSort numLe
      let minN := ((sorted.head?).getD t0).number
      let internalGaps := gapSum (sorted.map (·.number))
      let jokersLeft : Int := (s.length : Int) - nonJokers.length - internalGaps
      let leftPush := min jokersLeft (minN - 1)
      let start := minN - leftPush
      ((s.length : Int) * (2 * start + s.length - 1)) / 2

/-- Sum of `n` consecutive integers starting at `start`. -/
def runSum (start : Int) : Nat → Int
  | 0 => 0
  | n + 1 => start + runSum (start + 1) n

/-- Consecutive integers `start, start+1, ..., start+len-1`; the number
sequence of a run candidate built by the AI's run pass. -/
def intRange (start : Int) (len : Nat) : List Int :=
  (List.range len).map fun (k : Nat) => start + (k : Int)

/-- The mutable locals of `aiPlayTurn`: working hand and board, the
`madeMove` flag, the turn-point accumulator, and the local `hasMeld`. -/
structure AIState where
  hand : List Tile
  board : List TileSet
  made : Bool
  points : Int
  meld : Bool
deriving Repr

/-- The `tryPlaySet` closure: commit the candidate iff `hasMeld` holds or
the accumulated points plus its score reach 30; on commit append it to the
board, drop its ids from the hand, and update the flags. Returns the new
state and whether the commit happened. -/
def tryPlaySet (st : AIState) (s : TileSet) : AIState × Bool :=
  let points := calculateSetPoints s
  if st.meld || decide (30 ≤ st.points + points) then
    ({ hand := st.hand.filter fun t => !(s.any fun u => u.id == t.id)
       board := st.board ++ [s]
       made := true
       points := st.points + points
       meld := st.meld || decide (30 ≤ st.points + points) }, true)
  else (st, false)

/-- The entry `numMap[n]` of the group pass: non-joker tiles of number `n`
in hand order. -/
def numTiles (h1 : List Tile) (n : Int) : List Tile :=
  h1.filter fun t => !t.isJoker && t.number == n

/-- Deduplicate by color, keeping the first tile of each color. -/
def uniqueByColor : List Tile → List TileColor → List Tile
  | [], _ => []
  | t :: ts, seen =>
    if seen.contains t.color then uniqueByColor ts seen
    else t :: uniqueByColor ts (t.color :: seen)

/-- Keys of `numMap` in iteration order: JS objects iterate integer-like
keys ascending, so the distinct non-joker numbers sorted ascending. -/
def groupNums (h1 : List Tile) : List Int :=
  (((h1.filter fun t => !t.isJoker).map fun t => t.number).dedup).insertionSort
    (fun a b : Int => a ≤ b)

/-- One iteration of the group pass for the number `n`, over the snapshot
`h1` of the hand at pass start (the source builds `numMap` once). -/
def groupStep (h1 : List Tile) (st : AIState) (n : Int) : AIState :=
  let ub := uniqueByColor (numTiles h1 n) []
  if 3 ≤ ub.length then (tryPlaySet st (ub.take 3)).1
  else if ub.length == 2 && st.hand.any (fun t => t.isJoker) then
    match st.hand.find? fun t => t.isJoker with
    | some j => (tryPlaySet st (ub.take 2 ++ [j])).1
    | none => st
  else st

def groupPass (st : AIState) : AIState :=
  (groupNums st.hand).foldl (groupStep st.hand) st

/-- The inner loop of the run pass: starting from the tile numbered
`last`, append the next tile when its number is exactly `last + 1`, stop
at a larger gap, and skip duplicates (equal numbers fall through both
branches of the source's `if`/`else if`). -/
def buildRun (last : Int) : List Tile → List Tile
  | [] => []
  | t :: ts =>
    if t.number == last + 1 then t :: buildRun t.number ts
    else if last + 1 < t.number then []
    else buildRun last ts

/-- The outer `i` loop of the run pass for one color: offer each maximal
consecutive run of length at least 3 and stop this color's scan after the
first successful play. -/
def runPassColor (st : AIState) : List Tile → AIState
  | [] => st
  | t :: ts =>
    let run := t :: buildRun t.number ts
    if 3 ≤ run.length then
      let r := tryPlaySet st run
      if r.2 then r.1 else runPassColor st ts
    else runPassColor st ts

def runPass (st : AIState) : AIState :=
  fourColors.foldl
    (fun s c => runPassColor s ((s.hand.filter fun t => t.color == c).insertionSort numLe))
    st

/-- Inner `j` loop of the board-extension pass: the first hand tile whose
append keeps `cur` valid; returns the extended set and the hand with that
tile spliced out. -/
def findExt (cur : TileSet) : List Tile → Option (TileSet × List Tile)
  | [] => none
  | t :: ts =>
    if isValidSet (cur ++ [t]) then some (cur ++ [t], ts)
    else
      match findExt cur ts with
      | some (s, h) => some (s, t :: h)
      | none => none

/-- Outer `i` loop of one scan: the first (set, tile) pair in
lexicographic order admitting a valid extension. -/
def scanBoard (hand : List Tile) : List TileSet → Option (List TileSet × List Tile)
  | [] => none
  | s :: rest =>
    match findExt s hand with
    | some (s', h') => some (s' :: rest, h')
    | none =>
      match scanBoard hand rest with
      | some (rest', h') => some (s :: rest', h')
      | none => none

/-- The `while (changed)` loop, fuelled: each productive scan removes one
tile from the hand (proved below), so `hand.length + 1` rounds are never
exhausted and the fuelled function equals the source's unbounded loop.
Returns the final board, final hand, and the number of extensions made. -/
def extendLoopFuel : Nat → List TileSet → List Tile → List TileSet × List Tile × Nat
  | 0, b, h => (b, h, 0)
  | fuel + 1, b, h =>
    match scanBoard h b with
    | some (b', h') =>
      let r := extendLoopFuel fuel b' h'
      (r.1, r.2.1, r.2.2 + 1)
    | none => (b, h, 0)

def extendLoop (b : List TileSet) (h : List Tile) : List TileSet × List Tile × Nat :=
  extendLoopFuel (h.length + 1) b h

structure AIResult where
  newHand : List Tile
  newBoard : List TileSet
  madeMove : Bool
deriving Repr

/-- The whole automated turn: group pass, run pass, then (only when the
local `hasMeld` holds) the board-extension loop. -/
def aiPlayTurn (hand : List Tile) (board : List TileSet) (hasMeld : Bool) : AIResult :=
  let st0 : AIState :=
    { hand := hand, board := board, made := false, points := 0, meld := hasMeld }
  let st2 := runPass (groupPass st0)
  if st2.meld then
    let r := extendLoop st2.board st2.hand
    { newHand := r.2.1, newBoard := r.1, madeMove := st2.made || decide (0 < r.2.2) }
  else
    { newHand := st2.hand, newBoard := st2.board, madeMove := st2.made }

/-- The candidate sets the group pass offers to `tryPlaySet` when the hand
never changes (no commit succeeds): for each number key, the first three
color-unique tiles, or two of them plus the first joker. -/
def groupCandidates (hand : List Tile) : List TileSet :=
  (groupNums hand).flatMap fun n =>
    let ub := uniqueByColor (numTiles hand n) []
    if 3 ≤ ub.length then [ub.take 3]
    else if ub.length == 2 && hand.any (fun t => t.isJoker) then
      match hand.find? fun t => t.isJoker with
      | some j => [ub.take 2 ++ [j]]
      | none => []
    else []

/-- The run candidates offered from one color's sorted tile list when the
hand never changes: each maximal consecutive run of length at least 3. -/
def runCandidatesFrom : List Tile → List TileSet
  | [] => []
  | t :: ts =>
    (let run := t :: buildRun t.number ts
     if 3 ≤ run.length then [run] else []) ++ runCandidatesFrom ts

/-- All candidate sets formed in the group pass and the run pass of
`aiPlayTurn` on an unchanging hand. -/
def aiCandidates (hand : List Tile) : List TileSet :=
  groupCandidates hand ++
    fourColors.flatMap fun c =>
      runCandidatesFrom ((hand.filter fun t => t.color == c).insertionSort numLe)

/-- Well-formed game tile: a non-wildcard has a number in 1..13 and one of
the four real colors; a wildcard is flagged and colored Joker. -/
def wellFormedTile (t : Tile) : Bool :=
  (if t.isJoker then t.color == TileColor.Joker
   else decide (1 ≤ t.number) && decide (t.number ≤ 13) && fourColors.contains t.color)

/-! ### Shuffle is a permutation -/

theorem cons_set_perm : ∀ (t : List α) (m : Nat) (a b : α),
    t.get? m = some b → (b :: t.set m a).Perm (a :: t)
  | [], m, _, _, h => by simp at h
  | c :: t', 0, a, b, h => by
    have hcb : c = b := by simpa using h
    rw [List.set_cons_zero, ← hcb]
    exact List.Perm.swap a c t'
  | c :: t', m + 1, a, b, h => by
    rw [List.set_cons_succ]
    have ih := cons_set_perm t' m a b (by simpa using h)
    exact (List.Perm.swap c b _).trans ((ih.cons c).trans (List.Perm.swap a c t'))

theorem set_set_perm : ∀ (l : List α) (i j : Nat) (a b : α),
    l.get? i = some a → l.get? j = some b → ((l.set i b).set j a).Perm l
  | [], _, _, _, _, ha, _ => by simp at ha
  | c :: t, 0, 0, a, b, ha, hb => by
    have ha' : c = a := by simpa using ha
    rw [List.set_cons_zero, List.set_cons_zero, ← ha']
  | c :: t, 0, j + 1, a, b, ha, hb => by
    have ha' : c = a := by simpa using ha
    rw [List.set_cons_zero, List.set_cons_succ, ha']
    exact cons_set_perm t j a b (by simpa using hb)
  | c :: t, i + 1, 0, a, b, ha, hb => by
    have hb' : c = b := by simpa using hb
    rw [List.set_cons_succ, List.set_cons_zero, hb']
    exact cons_set_perm t i b a (by simpa using ha)
  | c :: t, i + 1, j + 1, a, b, ha, hb => by
    rw [List.set_cons_succ, List.set_cons_succ]
    exact (set_set_perm t i j a b (by simpa using ha) (by simpa using hb)).cons c

theorem swapNth_perm (l : List α) (i j : Nat) : (swapNth l i j).Perm l := by
  unfold swapNth
  cases ha : l.get? i with
  | none => exact List.Perm.refl l
  | some a =>
    cases hb : l.get? j with
    | none => exact List.Perm.refl l
    | some b => exact set_set_perm l i j a b ha hb

theorem shuffleAux_perm (rand : Nat → Nat) :
    ∀ (n : Nat) (l : List α), (shuffleAux rand n l).Perm l
  | 0, _ => List.Perm.refl _
  | n + 1, l =>
    (shuffleAux_perm rand n _).trans (swapNth_perm l (n + 1) (rand (n + 1) % (n + 2)))

theorem shuffle_perm (rand : Nat → Nat) (l : List α) : (shuffle rand l).Perm l :=
  shuffleAux_perm rand (l.length - 1) l

theorem createDeck_perm (rand : Nat → Nat) : (createDeck rand).Perm baseDeck :=
  shuffle_perm rand baseDeck

theorem mem_intRange {start n : Int} {len : Nat} :
    n ∈ intRange start len ↔ start ≤ n ∧ n < start + len := by
  constructor
  · intro h
    obtain ⟨k, hk, he⟩ := List.mem_map.mp h
    have hk' := List.mem_range.mp hk
    omega
  · intro h
    exact List.mem_map.mpr
      ⟨(n - start).toNat, List.mem_range.mpr (by omega), by omega⟩

theorem baseDeck_counts :
    (∀ c ∈ fourColors, ∀ n ∈ intRange 1 13,
      baseDeck.countP (fun t => t.color == c && t.number == n && !t.isJoker) = 2) ∧
    baseDeck.countP (fun t => t.isJoker) = 2 ∧
    baseDeck.length = 106 := by
  decide

set_option maxHeartbeats 4000000 in
theorem baseDeck_ids_nodup : (baseDeck.map (fun t => t.id)).Nodup := by
  decide

set_option maxRecDepth 4000 in
/-- Claim C7: every sequence returned by `createDeck` (for any stream of
random draws) has exactly 106 tiles, exactly 2 tiles of each real color
and number 1..13, exactly 2 wildcards, pairwise-distinct ids, and is a
permutation of the unshuffled deck (the shuffle only permutes). -/
theorem c7_createDeck_composition (rand : Nat → Nat) (c : TileColor) (n : Int)
    (hc : c ∈ fourColors) (hn : 1 ≤ n ∧ n ≤ 13) :
    (createDeck rand).length = 106 ∧
    (createDeck rand).countP (fun t => t.color == c && t.number == n && !t.isJoker) = 2 ∧
    (createDeck rand).countP (fun t => t.isJoker) = 2 ∧
    ((createDeck rand).map (fun t => t.id)).Nodup ∧
    (createDeck rand).Perm baseDeck := by
  have hperm := createDeck_perm rand
  refine ⟨?_, ?_, ?_, ?_, hperm⟩
  · rw [hperm.length_eq]
    exact baseDeck_counts.2.2
  · rw [hperm.countP_eq]
    exact baseDeck_counts.1 c hc n (mem_intRange.mpr ⟨hn.1, by omega⟩)
  · rw [hperm.countP_eq]
    exact baseDeck_counts.2.1
  · have hmapperm := hperm.map (fun t => t.id)
    exact hmapperm.nodup_iff.mpr baseDeck_ids_nodup

theorem c7_witness :
    (createDeck (fun _ => 0)).length = 106 ∧
    (createDeck (fun _ => 0)).countP
      (fun t => t.color == TileColor.Red && t.number == 5 && !t.isJoker) = 2 ∧
    (createDeck (fun _ => 0)).countP (fun t => t.isJoker) = 2 ∧
    ((createDeck (fun _ => 0)).map (fun t => t.id)).Nodup ∧
    (createDeck (fun _ => 0)).Perm baseDeck :=
  c7_createDeck_composition (fun _ => 0) TileColor.Red 5 (by decide) (by decide)

/-- Claim C10: any tile sequence shorter than 3 is rejected by
`isValidSet` with the value `false` (no error is signalled). -/
theorem c10_undersized_invalid (s : TileSet) (h : s.length < 3) :
    isValidSet s = false := by
  simp [isValidSet, h]

theorem c10_witness :
    isValidSet [] = false ∧
    isValidSet [{ id := "Red-5-0", number := 5, color := .Red, isJoker := false }] = false :=
  ⟨c10_undersized_invalid [] (by decide), c10_undersized_invalid _ (by decide)⟩

/-- Claim C8: whenever every non-wildcard tile of the set carries the same
number, `calculateSetPoints` takes the group branch and returns that
number times the total size, even when the set is also a valid run. -/
theorem c8_group_formula_precedence (s : TileSet) (t0 : Tile) (rest : List Tile)
    (hf : s.filter (fun t => !t.isJoker) = t0 :: rest)
    (hall : ∀ t ∈ t0 :: rest, t.number = t0.number) :
    calculateSetPoints s = t0.number * s.length := by
  have hgroup : (t0 :: rest).all (fun t => !t.isJoker && t.number == t0.number) = true := by
    rw [List.all_eq_true]
    intro t ht
    have hmem : t ∈ s.filter (fun t => !t.isJoker) := hf ▸ ht
    have hj : (!t.isJoker) = true := (List.mem_filter.mp hmem).2
    simp [hj, hall t ht]
  simp only [calculateSetPoints, hf, hgroup, if_true]

theorem c8_witness :
    calculateSetPoints
      [{ id := "Red-7-0", number := 7, color := .Red, isJoker := false },
       { id := "joker-1", number := 0, color := .Joker, isJoker := true },
       { id := "joker-2", number := 0, color := .Joker, isJoker := true }] = 21 ∧
    isValidSet
      [{ id := "Red-7-0", number := 7, color := .Red, isJoker := false },
       { id := "joker-1", number := 0, color := .Joker, isJoker := true },
       { id := "joker-2", number := 0, color := .Joker, isJoker := true }] = true := by
  constructor
  · have := c8_group_formula_precedence
      [{ id := "Red-7-0", number := 7, color := .Red, isJoker := false },
       { id := "joker-1", number := 0, color := .Joker, isJoker := true },
       { id := "joker-2", number := 0, color := .Joker, isJoker := true }]
      { id := "Red-7-0", number := 7, color := .Red, isJoker := false } []
      (by decide) (by decide)
    simpa using this
  · decide

/-! ### Claim C9: sortHand -/

theorem colorRank_inj_iff (c d : TileColor) : (c = d) ↔ (colorRank c = colorRank d) := by
  cases c <;> cases d <;> simp [colorRank]

theorem tileCmp_antisymm (key : SortKey) (a b : Tile) :
    tileCmp key b a = -tileCmp key a b := by
  unfold tileCmp
  cases key <;> cases ha : a.isJoker <;> cases hb : b.isJoker <;>
    simp only [ha, hb, Bool.not_true, Bool.not_false, Bool.and_true, Bool.and_false,
      Bool.true_and, Bool.false_and, Bool.and_self, ite_true, ite_false, if_true, if_false,
      eq_self_iff_true, reduceCtorEq, ne_eq, colorRank_inj_iff] <;>
    (try split_ifs) <;> omega

theorem sortRel_total (key : SortKey) (a b : Tile) :
    sortRel key a b ∨ sortRel key b a := by
  unfold sortRel
  rw [tileCmp_antisymm key a b]
  omega

theorem sortRel_trans (key : SortKey) (a b c : Tile) :
    sortRel key a b → sortRel key b c → sortRel key a c := by
  unfold sortRel tileCmp
  cases key <;> cases ha : a.isJoker <;> cases hb : b.isJoker <;> cases hc : c.isJoker <;>
    simp only [ha, hb, hc, Bool.not_true, Bool.not_false, Bool.and_self, Bool.and_true,
      Bool.and_false, Bool.true_and, Bool.false_and, if_true, if_false, eq_self_iff_true,
      reduceCtorEq, ite_true, ite_false, ne_eq, colorRank_inj_iff] <;>
    (try split_ifs) <;> (intro h1 h2; omega)

instance (key : SortKey) : IsTotal Tile (sortRel key) :=
  ⟨sortRel_total key⟩

instance (key : SortKey) : IsTrans Tile (sortRel key) :=
  ⟨sortRel_trans key⟩

theorem sortHand_sorted (hand : List Tile) (key : SortKey) :
    (sortHand hand key).Pairwise (sortRel key) :=
  List.sorted_insertionSort (sortRel key) hand

/-- Claim C9: `sortHand` is idempotent under both keys (sorting a sorted
hand returns the same order), and every wildcard in the output comes
after every non-wildcard. -/
theorem c9_sortHand_idempotent_jokers_last (hand : List Tile) (key : SortKey) :
    sortHand (sortHand hand key) key = sortHand hand key ∧
    (sortHand hand key).Pairwise (fun a b => a.isJoker = true → b.isJoker = true) := by
  constructor
  · have hsorted := sortHand_sorted hand key
    unfold sortHand at hsorted ⊢
    exact List.Sorted.insertionSort_eq hsorted
  · apply (sortHand_sorted hand key).imp
    intro a b hle hja
    cases hjb : b.isJoker with
    | true => rfl
    | false =>
      unfold sortRel at hle
      rw [show tileCmp key a b = 1 by unfold tileCmp; simp [hja, hjb]] at hle
      omega

/-! ### Sortedness helper lemmas for the run check and the run scorer -/

theorem insertionSort_numLe_pairwise (l : List Tile) :
    (l.insertionSort numLe).Pairwise numLe :=
  List.sorted_insertionSort numLe l

theorem pairwise_head_min {l : List Tile} {h0 : Tile}
    (hp : l.Pairwise numLe) (hh : l.head? = some h0) :
    ∀ t ∈ l, h0.number ≤ t.number := by
  cases l with
  | nil => simp at hh
  | cons a rest =>
    rw [List.head?_cons, Option.some.injEq] at hh
    subst hh
    intro t ht
    rcases List.mem_cons.mp ht with rfl | ht'
    · exact le_refl _
    · have h := List.rel_of_pairwise_cons hp ht'
      simpa [numLe] using h

theorem pairwise_getLast_max {l : List Tile} {hl : Tile}
    (hp : l.Pairwise numLe) (hh : l.getLast? = some hl) :
    ∀ t ∈ l, t.number ≤ hl.number := by
  induction l with
  | nil => simp at hh
  | cons a rest ih =>
    cases rest with
    | nil =>
      have : a = hl := by simpa using hh
      subst this
      intro t ht
      rcases List.mem_cons.mp ht with rfl | ht'
      · exact le_refl _
      · simp at ht'
    | cons b rest2 =>
      rw [List.getLast?_cons_cons] at hh
      have hfirst := (List.pairwise_cons.mp hp).1
      have hp' := (List.pairwise_cons.mp hp).2
      intro t ht
      rcases List.mem_cons.mp ht with rfl | ht'
      · have hlmem : hl ∈ b :: rest2 :=
          List.mem_of_mem_getLast? (Option.mem_def.mpr hh)
        have h := hfirst hl hlmem
        simpa [numLe] using h
      · exact ih hp' hh t ht'

theorem hasAdjDup_eq_false {l : List Int} (h : l.Pairwise fun a b => a ≠ b) :
    hasAdjDup l = false := by
  induction l with
  | nil => rfl
  | cons a rest ih =>
    cases rest with
    | nil => rfl
    | cons b rest2 =>
      have hab : a ≠ b := List.rel_of_pairwise_cons h (List.mem_cons_self b rest2)
      have hrec := ih (List.pairwise_cons.mp h).2
      simp [hasAdjDup, hab, hrec]

theorem groupCheck_eq_false {s : List Tile} {num : Int}
    (hx : ∃ t ∈ s, t.isJoker = false ∧ t.number ≠ num) :
    ∀ seen, groupCheck s num seen = false := by
  induction s with
  | nil =>
    rcases hx with ⟨t, ht, _⟩
    simp at ht
  | cons a rest ih =>
    intro seen
    rcases hx with ⟨t, ht, hj, hn⟩
    rcases List.mem_cons.mp ht with rfl | ht'
    · simp only [groupCheck]
      split_ifs with h1
      · exact absurd h1 (by simp [hj])
      · rfl
    · by_cases hja : a.isJoker = true
      · simp only [groupCheck, if_pos hja]
        exact ih ⟨t, ht', hj, hn⟩ seen
      · by_cases hna : a.number = num
        · simp only [groupCheck, if_neg hja, if_neg (by simp [hna] : ¬a.number ≠ num)]
          split_ifs with hc
          · rfl
          · exact ih ⟨t, ht', hj, hn⟩ _
        · simp [groupCheck, hja, hna]

/-- Claim C1: for a set of at least 3 and at most 13 tiles with at least
two non-wildcards that share one color and have pairwise distinct numbers,
`isValidSet` accepts exactly when the span fits the size and the run can
be placed inside 1..13: `max 1 (maxN - size + 1) ≤ min (13 - size + 1) minN`. -/
theorem c1_run_validity (s : TileSet) (t0 : Tile) (rest : List Tile) (minN maxN : Int)
    (hf : s.filter (fun t => !t.isJoker) = t0 :: rest)
    (hrest : rest ≠ [])
    (h3 : 3 ≤ s.length) (h13 : s.length ≤ 13)
    (hcolor : ∀ t ∈ t0 :: rest, t.color = t0.color)
    (hdist : (t0 :: rest).Pairwise fun a b => a.number ≠ b.number)
    (hminmem : minN ∈ (t0 :: rest).map (fun t => t.number))
    (hminle : ∀ m ∈ (t0 :: rest).map (fun t => t.number), minN ≤ m)
    (hmaxmem : maxN ∈ (t0 :: rest).map (fun t => t.number))
    (hmaxge : ∀ m ∈ (t0 :: rest).map (fun t => t.number), m ≤ maxN) :
    isValidSet s = true ↔
      (maxN - minN + 1 ≤ (s.length : Int) ∧
       max 1 (maxN - (s.length : Int) + 1) ≤ min (13 - (s.length : Int) + 1) minN) := by
  have hlen3 : ¬ (s.length < 3) := by omega
  obtain ⟨u, hu_mem_rest⟩ : ∃ u, u ∈ rest := by
    cases rest with
    | nil => exact absurd rfl hrest
    | cons v r => exact ⟨v, List.mem_cons_self v r⟩
  have hu_filter : u ∈ s.filter (fun t => !t.isJoker) := by
    rw [hf]; exact List.mem_cons_of_mem _ hu_mem_rest
  have hu_s : u ∈ s := (List.mem_filter.mp hu_filter).1
  have hu_nj : u.isJoker = false := by
    simpa using (List.mem_filter.mp hu_filter).2
  have hu_num : u.number ≠ t0.number :=
    (List.rel_of_pairwise_cons hdist hu_mem_rest).symm
  have hgc : ∀ seen, groupCheck s t0.number seen = false :=
    groupCheck_eq_false ⟨u, hu_s, hu_nj, hu_num⟩
  have hgroup_false : (if 4 < s.length then false else groupCheck s t0.number []) = false := by
    split_ifs
    · rfl
    · exact hgc []
  have hany : ((t0 :: rest).any fun t => !(t.color == t0.color)) = false := by
    rw [List.any_eq_false]
    intro t ht
    simp [hcolor t ht]
  have hperm := List.perm_insertionSort numLe (t0 :: rest)
  have hpair := insertionSort_numLe_pairwise (t0 :: rest)
  have hdist_sorted : ((t0 :: rest).insertionSort numLe).Pairwise
      (fun a b => a.number ≠ b.number) :=
    (hperm.pairwise_iff (fun h => h.symm)).mpr hdist
  have hadj : hasAdjDup (((t0 :: rest).insertionSort numLe).map (fun t => t.number)) = false :=
    hasAdjDup_eq_false (List.pairwise_map.mpr hdist_sorted)
  cases hs : (t0 :: rest).insertionSort numLe with
  | nil =>
    exfalso
    have hlen := congrArg List.length hs
    rw [List.length_insertionSort] at hlen
    simp at hlen
  | cons s0 srest =>
    rw [hs] at hperm hpair hadj
    have hlast_some : (s0 :: srest).getLast? =
        some ((s0 :: srest).getLast (List.cons_ne_nil s0 srest)) :=
      List.getLast?_eq_getLast _ _
    have hs0min : ∀ t ∈ s0 :: srest, s0.number ≤ t.number :=
      pairwise_head_min hpair (List.head?_cons)
    have hhlmax : ∀ t ∈ s0 :: srest,
        t.number ≤ ((s0 :: srest).getLast (List.cons_ne_nil s0 srest)).number :=
      pairwise_getLast_max hpair hlast_some
    have hmin_eq : s0.number = minN := by
      obtain ⟨v, hv, hveq⟩ := List.mem_map.mp hminmem
      have hv_sorted : v ∈ s0 :: srest := hperm.mem_iff.mpr hv
      have h1 : s0.number ≤ minN := hveq ▸ hs0min v hv_sorted
      have h2 : minN ≤ s0.number := by
        have hmem : s0 ∈ t0 :: rest := hperm.mem_iff.mp (List.mem_cons_self s0 srest)
        exact hminle _ (List.mem_map.mpr ⟨s0, hmem, rfl⟩)
      omega
    have hmax_eq : ((s0 :: srest).getLast (List.cons_ne_nil s0 srest)).number = maxN := by
      obtain ⟨v, hv, hveq⟩ := List.mem_map.mp hmaxmem
      have hv_sorted : v ∈ s0 :: srest := hperm.mem_iff.mpr hv
      have h1 : maxN ≤ ((s0 :: srest).getLast (List.cons_ne_nil s0 srest)).number :=
        hveq ▸ hhlmax v hv_sorted
      have h2 : ((s0 :: srest).getLast (List.cons_ne_nil s0 srest)).number ≤ maxN := by
        have hmem : (s0 :: srest).getLast (List.cons_ne_nil s0 srest) ∈ t0 :: rest :=
          hperm.mem_iff.mp (List.getLast_mem _)
        exact hmaxge _ (List.mem_map.mpr ⟨_, hmem, rfl⟩)
      omega
    simp only [isValidSet, hf, if_neg hlen3, hs, hgroup_false, Bool.false_or,
      if_neg (show ¬ 13 < s.length by omega), hany, Bool.false_eq_true, if_false,
      List.head?_cons, hlast_some, Option.getD_some, hadj]
    rw [hmin_eq, hmax_eq]
    split_ifs with hspan
    · constructor
      · intro h
        simp at h
      · intro hconj
        exfalso
        omega
    · simp only [decide_eq_true_eq]
      omega

theorem c1_witness :
    isValidSet
      [{ id := "Red-5-0", number := 5, color := .Red, isJoker := false },
       { id := "joker-1", number := 0, color := .Joker, isJoker := true },
       { id := "Red-7-0", number := 7, color := .Red, isJoker := false }] = true :=
  (c1_run_validity
    [{ id := "Red-5-0", number := 5, color := .Red, isJoker := false },
     { id := "joker-1", number := 0, color := .Joker, isJoker := true },
     { id := "Red-7-0", number := 7, color := .Red, isJoker := false }]
    { id := "Red-5-0", number := 5, color := .Red, isJoker := false }
    [{ id := "Red-7-0", number := 7, color := .Red, isJoker := false }]
    5 7 rfl (by decide) (by decide) (by decide) (by decide) (by decide)
    (by decide) (by decide) (by decide) (by decide)).mpr (by decide)

/-! ### Claim C2: run scoring -/

theorem two_mul_runSum : ∀ (n : Nat) (st : Int),
    2 * runSum st n = (n : Int) * (2 * st + (n : Int) - 1)
  | 0, st => by simp [runSum]
  | n + 1, st => by
    have ih := two_mul_runSum n (st + 1)
    simp only [runSum]
    push_cast
    push_cast at ih
    ring_nf
    ring_nf at ih
    omega

theorem series_eq_runSum (n : Nat) (st : Int) :
    ((n : Int) * (2 * st + (n : Int) - 1)) / 2 = runSum st n := by
  rw [← two_mul_runSum n st]
  exact Int.mul_ediv_cancel_left _ (by omega)

theorem insertionSort_head_eq_min {l : List Tile} {s0 : Tile} {srest : List Tile} {minN : Int}
    (hs : l.insertionSort numLe = s0 :: srest)
    (hminmem : minN ∈ l.map (fun t => t.number))
    (hminle : ∀ m ∈ l.map (fun t => t.number), minN ≤ m) :
    s0.number = minN := by
  have hperm := List.perm_insertionSort numLe l
  have hpair := insertionSort_numLe_pairwise l
  rw [hs] at hperm hpair
  have hs0min : ∀ t ∈ s0 :: srest, s0.number ≤ t.number :=
    pairwise_head_min hpair (List.head?_cons)
  obtain ⟨v, hv, hveq⟩ := List.mem_map.mp hminmem
  have h1 : s0.number ≤ minN := hveq ▸ hs0min v (hperm.mem_iff.mpr hv)
  have h2 : minN ≤ s0.number := by
    have hmem : s0 ∈ l := hperm.mem_iff.mp (List.mem_cons_self s0 srest)
    exact hminle _ (List.mem_map.mpr ⟨s0, hmem, rfl⟩)
  omega

/-- Claim C2: on a valid run with at least two non-wildcards (one shared
color, pairwise distinct numbers), `calculateSetPoints` returns the sum of
`size` consecutive integers starting at
`minN - min (size - nonWildcardCount - internalGaps) (minN - 1)`, with
`internalGaps` the sum of `next - current - 1` over the sorted non-wildcard
numbers. -/
theorem c2_run_scoring (s : TileSet) (t0 : Tile) (rest : List Tile) (minN : Int)
    (hf : s.filter (fun t => !t.isJoker) = t0 :: rest)
    (hrest : rest ≠ [])
    (hvalid : isValidSet s = true)
    (hcolor : ∀ t ∈ t0 :: rest, t.color = t0.color)
    (hdist : (t0 :: rest).Pairwise fun a b => a.number ≠ b.number)
    (hminmem : minN ∈ (t0 :: rest).map (fun t => t.number))
    (hminle : ∀ m ∈ (t0 :: rest).map (fun t => t.number), minN ≤ m) :
    calculateSetPoints s =
      runSum
        (minN - min ((s.length : Int) - ((t0 :: rest).length : Int) -
            gapSum (((t0 :: rest).insertionSort numLe).map (fun t => t.number)))
          (minN - 1))
        s.length := by
  obtain ⟨u, hu_mem_rest⟩ : ∃ u, u ∈ rest := by
    cases rest with
    | nil => exact absurd rfl hrest
    | cons v r => exact ⟨v, List.mem_cons_self v r⟩
  have hu_num : u.number ≠ t0.number :=
    (List.rel_of_pairwise_cons hdist hu_mem_rest).symm
  have hall_false :
      ((t0 :: rest).all fun t => !t.isJoker && t.number == t0.number) = false := by
    rw [List.all_eq_false]
    refine ⟨u, List.mem_cons_of_mem _ hu_mem_rest, ?_⟩
    simp [hu_num]
  cases hs : (t0 :: rest).insertionSort numLe with
  | nil =>
    exfalso
    have hlen := congrArg List.length hs
    rw [List.length_insertionSort] at hlen
    simp at hlen
  | cons s0 srest =>
    have hmin_eq : s0.number = minN := insertionSort_head_eq_min hs hminmem hminle
    simp only [calculateSetPoints, hf, hall_false, Bool.false_eq_true, if_false, hs,
      List.head?_cons, Option.getD_some, hmin_eq]
    exact series_eq_runSum s.length _

theorem c2_witness :
    calculateSetPoints
      [{ id := "Red-5-0", number := 5, color := .Red, isJoker := false },
       { id := "joker-1", number := 0, color := .Joker, isJoker := true },
       { id := "Red-7-0", number := 7, color := .Red, isJoker := false }] = 18 ∧
    calculateSetPoints
      [{ id := "joker-1", number := 0, color := .Joker, isJoker := true },
       { id := "Red-2-0", number := 2, color := .Red, isJoker := false },
       { id := "Red-3-0", number := 3, color := .Red, isJoker := false }] = 6 := by
  constructor
  · have h := c2_run_scoring
      [{ id := "Red-5-0", number := 5, color := .Red, isJoker := false },
       { id := "joker-1", number := 0, color := .Joker, isJoker := true },
       { id := "Red-7-0", number := 7, color := .Red, isJoker := false }]
      { id := "Red-5-0", number := 5, color := .Red, isJoker := false }
      [{ id := "Red-7-0", number := 7, color := .Red, isJoker := false }]
      5 rfl (by decide) (by decide) (by decide) (by decide) (by decide) (by decide)
    rw [h]
    decide
  · have h := c2_run_scoring
      [{ id := "joker-1", number := 0, color := .Joker, isJoker := true },
       { id := "Red-2-0", number := 2, color := .Red, isJoker := false },
       { id := "Red-3-0", number := 3, color := .Red, isJoker := false }]
      { id := "Red-2-0", number := 2, color := .Red, isJoker := false }
      [{ id := "Red-3-0", number := 3, color := .Red, isJoker := false }]
      2 rfl (by decide) (by decide) (by decide) (by decide) (by decide) (by decide)
    rw [h]
    decide

/-! ### Claim C5: no move below the 30-point threshold -/

theorem foldl_fixed {α β : Type} (f : β → α → β) (b : β) :
    ∀ (l : List α), (∀ a ∈ l, f b a = b) → l.foldl f b = b
  | [], _ => rfl
  | a :: l, h => by
    rw [List.foldl_cons, h a (List.mem_cons_self a l)]
    exact foldl_fixed f b l fun x hx => h x (List.mem_cons_of_mem a hx)

theorem tryPlaySet_fail {st : AIState} {s : TileSet}
    (hm : st.meld = false) (hp : st.points = 0)
    (hscore : calculateSetPoints s < 30) :
    tryPlaySet st s = (st, false) := by
  unfold tryPlaySet
  rw [hm, hp]
  simp only [Bool.false_or]
  rw [if_neg]
  simp only [decide_eq_true_eq]
  omega

theorem groupStep_fixed {st : AIState} {n : Int}
    (hm : st.meld = false) (hp : st.points = 0)
    (hn : n ∈ groupNums st.hand)
    (H : ∀ c ∈ groupCandidates st.hand, calculateSetPoints c < 30) :
    groupStep st.hand st n = st := by
  unfold groupStep
  dsimp only
  split_ifs with h3 h2
  · have hmem : (uniqueByColor (numTiles st.hand n) []).take 3 ∈ groupCandidates st.hand := by
      unfold groupCandidates
      refine List.mem_flatMap.mpr ⟨n, hn, ?_⟩
      rw [if_pos h3]
      exact List.mem_singleton.mpr rfl
    rw [tryPlaySet_fail hm hp (H _ hmem)]
  · cases hfind : st.hand.find? fun t => t.isJoker with
    | none => rfl
    | some j =>
      have hmem : (uniqueByColor (numTiles st.hand n) []).take 2 ++ [j] ∈
          groupCandidates st.hand := by
        unfold groupCandidates
        refine List.mem_flatMap.mpr ⟨n, hn, ?_⟩
        rw [if_neg h3, if_pos h2, hfind]
        exact List.mem_singleton.mpr rfl
      dsimp only
      rw [tryPlaySet_fail hm hp (H _ hmem)]
  · rfl

theorem groupPass_fixed {st : AIState}
    (hm : st.meld = false) (hp : st.points = 0)
    (H : ∀ c ∈ groupCandidates st.hand, calculateSetPoints c < 30) :
    groupPass st = st := by
  unfold groupPass
  exact foldl_fixed _ st _ fun n hn => groupStep_fixed hm hp hn H

theorem runPassColor_fixed {st : AIState}
    (hm : st.meld = false) (hp : st.points = 0) :
    ∀ (l : List Tile), (∀ c ∈ runCandidatesFrom l, calculateSetPoints c < 30) →
    runPassColor st l = st
  | [], _ => rfl
  | t :: ts, H => by
    unfold runPassColor
    dsimp only
    have Hts : ∀ c ∈ runCandidatesFrom ts, calculateSetPoints c < 30 := by
      intro c hc
      refine H c ?_
      unfold runCandidatesFrom
      exact List.mem_append_right _ hc
    by_cases h3 : 3 ≤ (t :: buildRun t.number ts).length
    · have hmem : t :: buildRun t.number ts ∈ runCandidatesFrom (t :: ts) := by
        unfold runCandidatesFrom
        refine List.mem_append_left _ ?_
        rw [if_pos h3]
        exact List.mem_singleton.mpr rfl
      rw [if_pos h3, tryPlaySet_fail hm hp (H _ hmem)]
      show (if false = true then st else runPassColor st ts) = st
      rw [if_neg (by simp)]
      exact runPassColor_fixed hm hp ts Hts
    · rw [if_neg h3]
      exact runPassColor_fixed hm hp ts Hts

theorem runPass_fixed {st : AIState}
    (hm : st.meld = false) (hp : st.points = 0)
    (H : ∀ c ∈ fourColors.flatMap (fun c =>
        runCandidatesFrom ((st.hand.filter fun t => t.color == c).insertionSort numLe)),
      calculateSetPoints c < 30) :
    runPass st = st := by
  unfold runPass
  refine foldl_fixed _ st _ fun c hc => ?_
  refine runPassColor_fixed hm hp _ fun cand hcand => ?_
  exact H cand (List.mem_flatMap.mpr ⟨c, hc, hcand⟩)

/-- Claim C5: with `hasMeld = false`, if every candidate set formed in the
group pass and the run pass scores below 30, `aiPlayTurn` makes no move
and returns the hand and board unchanged. -/
theorem c5_no_move_below_threshold (hand : List Tile) (board : List TileSet)
    (H : ∀ c ∈ aiCandidates hand, calculateSetPoints c < 30) :
    aiPlayTurn hand board false =
      { newHand := hand, newBoard := board, madeMove := false } := by
  have hg : groupPass ⟨hand, board, false, 0, false⟩ = ⟨hand, board, false, 0, false⟩ :=
    groupPass_fixed rfl rfl fun c hc => H c (List.mem_append_left _ hc)
  have hr : runPass ⟨hand, board, false, 0, false⟩ = ⟨hand, board, false, 0, false⟩ :=
    runPass_fixed rfl rfl fun c hc => H c (List.mem_append_right _ hc)
  unfold aiPlayTurn
  dsimp only
  rw [hg, hr]
  rfl

theorem c5_witness :
    aiPlayTurn
      [{ id := "Red-5-0", number := 5, color := .Red, isJoker := false },
       { id := "Red-6-0", number := 6, color := .Red, isJoker := false },
       { id := "Red-7-0", number := 7, color := .Red, isJoker := false }] [] false =
      { newHand :=
          [{ id := "Red-5-0", number := 5, color := .Red, isJoker := false },
           { id := "Red-6-0", number := 6, color := .Red, isJoker := false },
           { id := "Red-7-0", number := 7, color := .Red, isJoker := false }],
        newBoard := [], madeMove := false } :=
  c5_no_move_below_threshold _ _ (by decide)

/-! ### Claim C6: the board-extension loop -/

theorem findExt_spec : ∀ {hand : List Tile} {cur s' : TileSet} {h' : List Tile},
    findExt cur hand = some (s', h') →
    ∃ t, s' = cur ++ [t] ∧ hand.Perm (t :: h') ∧ h'.length + 1 = hand.length ∧
      isValidSet s' = true := by
  intro hand
  induction hand with
  | nil =>
    intro cur s' h' h
    simp [findExt] at h
  | cons t ts ih =>
    intro cur s' h' h
    unfold findExt at h
    split_ifs at h with hv
    · rw [Option.some.injEq, Prod.mk.injEq] at h
      obtain ⟨rfl, rfl⟩ := h
      exact ⟨t, rfl, List.Perm.refl _, by simp, hv⟩
    · cases hrec : findExt cur ts with
      | none => rw [hrec] at h; simp at h
      | some p =>
        obtain ⟨s1, h1⟩ := p
        rw [hrec] at h
        simp only [Option.some.injEq, Prod.mk.injEq] at h
        obtain ⟨rfl, rfl⟩ := h
        obtain ⟨u, hu1, hu2, hu3, hu4⟩ := ih hrec
        refine ⟨u, hu1, ?_, by simp [← hu3], hu4⟩
        exact (hu2.cons t).trans (List.Perm.swap u t h1)

theorem scanBoard_spec : ∀ {board : List TileSet} {hand : List Tile}
    {b' : List TileSet} {h' : List Tile},
    scanBoard hand board = some (b', h') →
    ∃ t, hand.Perm (t :: h') ∧ (b'.flatten).Perm (t :: board.flatten) ∧
      h'.length + 1 = hand.length ∧
      ((∀ s ∈ board, isValidSet s = true) → ∀ s ∈ b', isValidSet s = true) := by
  intro board
  induction board with
  | nil =>
    intro hand b' h' h
    simp [scanBoard] at h
  | cons s rest ih =>
    intro hand b' h' h
    unfold scanBoard at h
    cases hfe : findExt s hand with
    | some p =>
      obtain ⟨s1, h1⟩ := p
      rw [hfe] at h
      simp only [Option.some.injEq, Prod.mk.injEq] at h
      obtain ⟨rfl, rfl⟩ := h
      obtain ⟨t, ht1, ht2, ht3, ht4⟩ := findExt_spec hfe
      refine ⟨t, ht2, ?_, ht3, ?_⟩
      · rw [List.flatten_cons, ht1, List.flatten_cons]
        have h1 : (s ++ [t]) ++ rest.flatten = s ++ (t :: rest.flatten) := by
          rw [List.append_assoc]
          rfl
        rw [h1]
        exact List.perm_middle
      · intro hall s2 hs2
        rcases List.mem_cons.mp hs2 with rfl | hs2'
        · exact ht4
        · exact hall s2 (List.mem_cons_of_mem _ hs2')
    | none =>
      rw [hfe] at h
      cases hsc : scanBoard hand rest with
      | none => rw [hsc] at h; simp at h
      | some p =>
        obtain ⟨rest', h1⟩ := p
        rw [hsc] at h
        simp only [Option.some.injEq, Prod.mk.injEq] at h
        obtain ⟨rfl, rfl⟩ := h
        obtain ⟨t, ht1, ht2, ht3, ht4⟩ := ih hsc
        refine ⟨t, ht1, ?_, ht3, ?_⟩
        · rw [List.flatten_cons, List.flatten_cons]
          exact ((ht2.append_left s).trans List.perm_middle)
        · intro hall s2 hs2
          rcases List.mem_cons.mp hs2 with rfl | hs2'
          · exact hall s2 (List.mem_cons_self _ _)
          · exact ht4 (fun x hx => hall x (List.mem_cons_of_mem _ hx)) s2 hs2'

theorem extendLoopFuel_spec : ∀ (fuel : Nat) (b : List TileSet) (h : List Tile),
    h.length < fuel →
    ∃ moved : List Tile,
      (extendLoopFuel fuel b h).2.2 + (extendLoopFuel fuel b h).2.1.length = h.length ∧
      moved.length = (extendLoopFuel fuel b h).2.2 ∧
      h.Perm ((extendLoopFuel fuel b h).2.1 ++ moved) ∧
      ((extendLoopFuel fuel b h).1.flatten).Perm (moved ++ b.flatten) ∧
      ((∀ s ∈ b, isValidSet s = true) →
        ∀ s ∈ (extendLoopFuel fuel b h).1, isValidSet s = true)
  | 0, b, h, hlt => absurd hlt (by omega)
  | fuel + 1, b, h, hlt => by
    unfold extendLoopFuel
    cases hsc : scanBoard h b with
    | none =>
      exact ⟨[], by simp, by simp, by simp, by simp, fun hall => hall⟩
    | some p =>
      obtain ⟨b1, h1⟩ := p
      obtain ⟨t, ht1, ht2, ht3, ht4⟩ := scanBoard_spec hsc
      have hlt1 : h1.length < fuel := by omega
      obtain ⟨m1, hm0, hm1, hm2, hm3, hm4⟩ := extendLoopFuel_spec fuel b1 h1 hlt1
      refine ⟨t :: m1, by simp; omega, by simp [hm1], ?_, ?_, ?_⟩
      · exact (ht1.trans ((hm2.cons t).trans List.perm_middle.symm))
      · exact (hm3.trans ((ht2.append_left m1).trans List.perm_middle))
      · intro hall
        exact hm4 (ht4 hall)

/-- Claim C6: the board-extension loop terminates with at most one
productive scan per hand tile: the number of extensions plus the size of
the remaining hand equals the input hand size (so at most `hand.length`
productive scans, one final empty scan more), and the moved tiles form a
sub-multiset of the hand, each moved exactly once onto the board. -/
theorem c6_extension_loop_bounds (board : List TileSet) (hand : List Tile) :
    (extendLoop board hand).2.2 + (extendLoop board hand).2.1.length = hand.length ∧
    (extendLoop board hand).2.2 ≤ hand.length ∧
    ∃ moved : List Tile, moved.length = (extendLoop board hand).2.2 ∧
      hand.Perm ((extendLoop board hand).2.1 ++ moved) ∧
      ((extendLoop board hand).1.flatten).Perm (moved ++ board.flatten) := by
  unfold extendLoop
  obtain ⟨moved, h0, h1, h2, h3, _⟩ :=
    extendLoopFuel_spec (hand.length + 1) board hand (by omega)
  exact ⟨h0, by omega, moved, h1, h2, h3⟩

/-! ### Claim C4: validity of every set the automated player leaves on the board -/

theorem contains_false_iff {l : List TileColor} {c : TileColor} :
    l.contains c = false ↔ c ∉ l := by
  rw [← Bool.not_eq_true]
  simp [List.contains, List.elem_iff]

theorem groupCheck_eq_true : ∀ (s : List Tile) (ν : Int) (seen : List TileColor),
    (∀ t ∈ s, t.isJoker = false → t.number = ν) →
    ((s.filter fun t => !t.isJoker).Pairwise fun a b => a.color ≠ b.color) →
    (∀ t ∈ s, t.isJoker = false → t.color ∉ seen) →
    groupCheck s ν seen = true
  | [], _, _, _, _, _ => rfl
  | t :: ts, ν, seen, hnum, hcol, hseen => by
    cases hj : t.isJoker with
    | true =>
      have hfe : (t :: ts).filter (fun t => !t.isJoker) = ts.filter (fun t => !t.isJoker) := by
        simp [List.filter_cons, hj]
      rw [hfe] at hcol
      simp only [groupCheck, if_pos hj]
      exact groupCheck_eq_true ts ν seen
        (fun u hu => hnum u (List.mem_cons_of_mem _ hu)) hcol
        (fun u hu => hseen u (List.mem_cons_of_mem _ hu))
    | false =>
      have hfe : (t :: ts).filter (fun t => !t.isJoker) =
          t :: ts.filter (fun t => !t.isJoker) := by
        simp [List.filter_cons, hj]
      rw [hfe] at hcol
      have hnums : t.number = ν := hnum t (List.mem_cons_self t ts) hj
      have hcont : seen.contains t.color = false :=
        contains_false_iff.mpr (hseen t (List.mem_cons_self t ts) hj)
      simp only [groupCheck, hj, Bool.false_eq_true, if_false,
        if_neg (show ¬t.number ≠ ν by simp [hnums]), hcont]
      refine groupCheck_eq_true ts ν (t.color :: seen)
        (fun u hu => hnum u (List.mem_cons_of_mem _ hu))
        (List.pairwise_cons.mp hcol).2
        (fun u hu huj => ?_)
      have hune : t.color ≠ u.color :=
        (List.pairwise_cons.mp hcol).1 u (List.mem_filter.mpr ⟨hu, by simp [huj]⟩)
      intro hmem
      rcases List.mem_cons.mp hmem with h | h
      · exact hune h.symm
      · exact hseen u (List.mem_cons_of_mem _ hu) huj h

theorem isValidSet_group (s : List Tile) (ν : Int)
    (h3 : 3 ≤ s.length) (h4 : s.length ≤ 4)
    (hnum : ∀ t ∈ s, t.isJoker = false → t.number = ν)
    (hcolor : (s.filter fun t => !t.isJoker).Pairwise fun a b => a.color ≠ b.color)
    (hne : s.filter (fun t => !t.isJoker) ≠ []) :
    isValidSet s = true := by
  cases hf : s.filter (fun t => !t.isJoker) with
  | nil => exact absurd hf hne
  | cons t0 rest =>
    have ht0s : t0 ∈ s := by
      have : t0 ∈ s.filter (fun t => !t.isJoker) := by
        rw [hf]; exact List.mem_cons_self _ _
      exact (List.mem_filter.mp this).1
    have ht0j : t0.isJoker = false := by
      have : t0 ∈ s.filter (fun t => !t.isJoker) := by
        rw [hf]; exact List.mem_cons_self _ _
      simpa using (List.mem_filter.mp this).2
    have hgc : groupCheck s t0.number [] = true := by
      rw [hnum t0 ht0s ht0j]
      exact groupCheck_eq_true s ν [] hnum hcolor (by simp)
    simp only [isValidSet, if_neg (show ¬s.length < 3 by omega), hf,
      if_neg (show ¬4 < s.length by omega), hgc, Bool.true_or]

theorem intRange_succ (k : Int) (m : Nat) : intRange k (m + 1) = k :: intRange (k + 1) m := by
  simp only [intRange, List.range_succ_eq_map, List.map_cons, List.map_map,
    Nat.cast_zero, add_zero]
  refine congrArg _ (List.map_congr_left fun i _ => ?_)
  simp only [Function.comp_apply]
  push_cast
  ring

theorem intRange_getLast? (k : Int) (m : Nat) :
    (intRange k (m + 1)).getLast? = some (k + m) := by
  simp only [intRange, List.range_succ, List.map_append, List.map_cons, List.map_nil]
  exact List.getLast?_concat _

theorem intRange_pairwise_lt (k : Int) (m : Nat) :
    (intRange k m).Pairwise (fun a b => a < b) :=
  (List.pairwise_lt_range m).map _ (fun a b hab => by omega)

theorem buildRun_sublist : ∀ (ts : List Tile) (last : Int),
    (buildRun last ts).Sublist ts
  | [], _ => List.Sublist.refl _
  | t :: ts, last => by
    unfold buildRun
    split_ifs with h1 h2
    · exact List.cons_sublist_cons.mpr (buildRun_sublist ts t.number)
    · exact List.nil_sublist _
    · exact (buildRun_sublist ts last).cons t

theorem buildRun_map : ∀ (ts : List Tile) (last : Int),
    (buildRun last ts).map (fun t => t.number) =
      intRange (last + 1) (buildRun last ts).length
  | [], _ => rfl
  | t :: ts, last => by
    unfold buildRun
    split_ifs with h1 h2
    · have hn : t.number = last + 1 := by simpa using h1
      rw [List.map_cons, buildRun_map ts t.number, List.length_cons, intRange_succ, hn]
    · rfl
    · exact buildRun_map ts last

theorem uniqueByColor_sublist : ∀ (l : List Tile) (seen : List TileColor),
    (uniqueByColor l seen).Sublist l
  | [], _ => List.Sublist.refl _
  | t :: ts, seen => by
    unfold uniqueByColor
    split_ifs with h
    · exact (uniqueByColor_sublist ts seen).cons t
    · exact List.cons_sublist_cons.mpr (uniqueByColor_sublist ts (t.color :: seen))

theorem uniqueByColor_colors : ∀ (l : List Tile) (seen : List TileColor),
    ((uniqueByColor l seen).Pairwise fun a b => a.color ≠ b.color) ∧
    (∀ t ∈ uniqueByColor l seen, t.color ∉ seen)
  | [], _ => ⟨List.Pairwise.nil, by simp [uniqueByColor]⟩
  | t :: ts, seen => by
    unfold uniqueByColor
    split_ifs with h
    · exact uniqueByColor_colors ts seen
    · have ih := uniqueByColor_colors ts (t.color :: seen)
      constructor
      · refine List.pairwise_cons.mpr ⟨fun u hu => ?_, ih.1⟩
        have := ih.2 u hu
        intro he
        exact this (he ▸ List.mem_cons_self _ _)
      · intro u hu
        rcases List.mem_cons.mp hu with rfl | hu'
        · exact fun hmem => h (List.elem_iff.mpr hmem)
        · exact fun hmem => ih.2 u hu' (List.mem_cons_of_mem _ hmem)

theorem isValidSet_run (s : List Tile) (c : TileColor) (k : Int)
    (hmap : s.map (fun t => t.number) = intRange k s.length)
    (h3 : 3 ≤ s.length)
    (hnj : ∀ t ∈ s, t.isJoker = false)
    (hcol : ∀ t ∈ s, t.color = c)
    (hk : 1 ≤ k) (hkr : k + s.length ≤ 14) :
    isValidSet s = true := by
  have hflt : s.filter (fun t => !t.isJoker) = s :=
    List.filter_eq_self.mpr (fun t ht => by simp [hnj t ht])
  have hplt : (s.map (fun t => t.number)).Pairwise (fun a b => a < b) := by
    rw [hmap]; exact intRange_pairwise_lt k s.length
  have hple : s.Pairwise numLe :=
    (List.pairwise_map.mp hplt).imp (fun hab => le_of_lt hab)
  have hsorted_eq : s.insertionSort numLe = s := List.Sorted.insertionSort_eq hple
  have hadj : hasAdjDup (s.map (fun t => t.number)) = false :=
    hasAdjDup_eq_false (hplt.imp (fun hab => ne_of_lt hab))
  obtain ⟨t0, rest, rfl⟩ : ∃ t0 rest, s = t0 :: rest := by
    cases s with
    | nil => simp at h3
    | cons a l => exact ⟨a, l, rfl⟩
  have hlc : (t0 :: rest).length = rest.length + 1 := rfl
  have hhead : t0.number = k := by
    rw [List.map_cons, hlc, intRange_succ] at hmap
    injection hmap
  have hlast : ((t0 :: rest).map (fun t => t.number)).getLast? = some (k + rest.length) := by
    rw [hmap, hlc]
    exact intRange_getLast? k rest.length
  rw [List.getLast?_map] at hlast
  obtain ⟨hl, hlast_eq, hlnum⟩ := Option.map_eq_some'.mp hlast
  have hany : ((t0 :: rest).any fun t => !(t.color == t0.color)) = false := by
    rw [List.any_eq_false]
    intro t ht
    simp [hcol t ht, hcol t0 (List.mem_cons_self t0 rest)]
  simp only [isValidSet, if_neg (show ¬(t0 :: rest).length < 3 by omega), hflt,
    if_neg (show ¬13 < (t0 :: rest).length by omega), hany, Bool.false_eq_true, if_false,
    hsorted_eq, hadj, List.head?_cons, Option.getD_some, hlast_eq]
  rw [hhead, hlnum]
  cases hgv : (if 4 < (t0 :: rest).length then false else groupCheck (t0 :: rest) k []) with
  | true => rw [Bool.true_or]
  | false =>
    rw [Bool.false_or]
    split_ifs with hspan
    · exfalso
      omega
    · rw [decide_eq_true_eq]
      omega

theorem tryPlaySet_board_valid {st : AIState} {s : TileSet}
    (hb : ∀ x ∈ st.board, isValidSet x = true) (hs : isValidSet s = true) :
    ∀ x ∈ (tryPlaySet st s).1.board, isValidSet x = true := by
  unfold tryPlaySet
  dsimp only
  split_ifs with h
  · intro x hx
    rcases List.mem_append.mp hx with hx' | hx'
    · exact hb x hx'
    · rw [List.mem_singleton.mp hx']
      exact hs
  · exact hb

theorem tryPlaySet_hand_sublist (st : AIState) (s : TileSet) :
    (tryPlaySet st s).1.hand.Sublist st.hand := by
  unfold tryPlaySet
  dsimp only
  split_ifs with h
  · exact List.filter_sublist st.hand
  · exact List.Sublist.refl _

theorem numTiles_spec {h1 : List Tile} {n : Int} {t : Tile} (ht : t ∈ numTiles h1 n) :
    t ∈ h1 ∧ t.isJoker = false ∧ t.number = n := by
  have := List.mem_filter.mp ht
  refine ⟨this.1, ?_, ?_⟩
  · have := this.2
    simp only [Bool.and_eq_true, Bool.not_eq_true'] at this
    exact this.1
  · have := this.2
    simp only [Bool.and_eq_true, beq_iff_eq] at this
    exact this.2

theorem groupStep_board_valid {h1 : List Tile} {st : AIState} {n : Int}
    (hb : ∀ x ∈ st.board, isValidSet x = true) :
    ∀ x ∈ (groupStep h1 st n).board, isValidSet x = true := by
  unfold groupStep
  dsimp only
  split_ifs with h3 h2
  · refine tryPlaySet_board_valid hb ?_
    have hsub3 : ((uniqueByColor (numTiles h1 n) []).take 3).Sublist (numTiles h1 n) :=
      (List.take_sublist _ _).trans (uniqueByColor_sublist _ _)
    have hlen : ((uniqueByColor (numTiles h1 n) []).take 3).length = 3 := by
      rw [List.length_take]
      omega
    have hallnj : ((uniqueByColor (numTiles h1 n) []).take 3).filter
        (fun t => !t.isJoker) = (uniqueByColor (numTiles h1 n) []).take 3 :=
      List.filter_eq_self.mpr fun t ht => by
        simp [(numTiles_spec (hsub3.mem ht)).2.1]
    refine isValidSet_group _ n (by omega) (by omega) ?_ ?_ ?_
    · intro t ht _
      exact (numTiles_spec (hsub3.mem ht)).2.2
    · rw [hallnj]
      exact List.Pairwise.sublist (List.take_sublist 3 _)
        ((uniqueByColor_colors (numTiles h1 n) []).1)
    · rw [hallnj]
      intro hcontra
      rw [hcontra] at hlen
      simp at hlen
  · cases hfind : st.hand.find? fun t => t.isJoker with
    | none => exact hb
    | some j =>
      dsimp only
      refine tryPlaySet_board_valid hb ?_
      have hjj : j.isJoker = true := List.find?_some hfind
      have hub2 : (uniqueByColor (numTiles h1 n) []).length = 2 := by
        have := h2
        simp only [Bool.and_eq_true, beq_iff_eq] at this
        exact this.1
      have hsub2 : ((uniqueByColor (numTiles h1 n) []).take 2).Sublist (numTiles h1 n) :=
        (List.take_sublist _ _).trans (uniqueByColor_sublist _ _)
      have hlen2 : ((uniqueByColor (numTiles h1 n) []).take 2).length = 2 := by
        rw [List.length_take]
        omega
      have hfltr : ((uniqueByColor (numTiles h1 n) []).take 2 ++ [j]).filter
          (fun t => !t.isJoker) = (uniqueByColor (numTiles h1 n) []).take 2 := by
        rw [List.filter_append]
        have h1f : ((uniqueByColor (numTiles h1 n) []).take 2).filter
            (fun t => !t.isJoker) = (uniqueByColor (numTiles h1 n) []).take 2 :=
          List.filter_eq_self.mpr fun t ht => by
            simp [(numTiles_spec (hsub2.mem ht)).2.1]
        rw [h1f]
        simp [hjj]
      refine isValidSet_group _ n (by simp [hlen2]) (by simp [hlen2]) ?_ ?_ ?_
      · intro t ht htj
        rcases List.mem_append.mp ht with ht' | ht'
        · exact (numTiles_spec (hsub2.mem ht')).2.2
        · rw [List.mem_singleton.mp ht'] at htj
          rw [hjj] at htj
          cases htj
      · rw [hfltr]
        exact List.Pairwise.sublist (List.take_sublist 2 _)
          ((uniqueByColor_colors (numTiles h1 n) []).1)
      · rw [hfltr]
        intro hcontra
        rw [hcontra] at hlen2
        simp at hlen2
  · exact hb

theorem foldl_preserve_mem {α β : Type} (P : β → Prop) (f : β → α → β) :
    ∀ (l : List α), (∀ b, ∀ a ∈ l, P b → P (f b a)) → ∀ b, P b → P (l.foldl f b)
  | [], _, _, hb => hb
  | a :: l, hstep, b, hb =>
    foldl_preserve_mem P f l
      (fun b' a' ha' => hstep b' a' (List.mem_cons_of_mem a ha'))
      (f b a) (hstep b a (List.mem_cons_self a l) hb)

theorem groupPass_board_valid {st : AIState}
    (hb : ∀ x ∈ st.board, isValidSet x = true) :
    ∀ x ∈ (groupPass st).board, isValidSet x = true := by
  unfold groupPass
  exact foldl_preserve_mem (fun s => ∀ x ∈ s.board, isValidSet x = true)
    (groupStep st.hand) (groupNums st.hand)
    (fun s n _ hv => groupStep_board_valid hv) st hb

theorem groupStep_hand_sublist (h1 : List Tile) (st : AIState) (n : Int) :
    (groupStep h1 st n).hand.Sublist st.hand := by
  unfold groupStep
  dsimp only
  split_ifs with h3 h2
  · exact tryPlaySet_hand_sublist st _
  · cases hfind : st.hand.find? fun t => t.isJoker with
    | none => exact List.Sublist.refl _
    | some j => exact tryPlaySet_hand_sublist st _
  · exact List.Sublist.refl _

theorem groupPass_hand_sublist (st : AIState) :
    (groupPass st).hand.Sublist st.hand := by
  unfold groupPass
  exact foldl_preserve_mem (fun s => s.hand.Sublist st.hand)
    (groupStep st.hand) (groupNums st.hand)
    (fun s n _ hs => (groupStep_hand_sublist st.hand s n).trans hs)
    st (List.Sublist.refl _)

theorem mem_fourColors_ne_joker {c : TileColor} (h : c ∈ fourColors) :
    c ≠ TileColor.Joker := by
  intro he
  subst he
  simp [fourColors] at h

theorem runPassColor_board_valid {c : TileColor} (hc : c ∈ fourColors) :
    ∀ (l : List Tile) (st : AIState),
    (∀ t ∈ l, wellFormedTile t = true ∧ t.color = c) →
    (∀ x ∈ st.board, isValidSet x = true) →
    ∀ x ∈ (runPassColor st l).board, isValidSet x = true
  | [], _, _, hb => hb
  | t :: ts, st, hl, hb => by
    have hts : ∀ u ∈ ts, wellFormedTile u = true ∧ u.color = c :=
      fun u hu => hl u (List.mem_cons_of_mem t hu)
    unfold runPassColor
    dsimp only
    by_cases h3 : 3 ≤ (t :: buildRun t.number ts).length
    · rw [if_pos h3]
      have hrun_sub : (t :: buildRun t.number ts).Sublist (t :: ts) :=
        List.cons_sublist_cons.mpr (buildRun_sublist ts t.number)
      have hmem : ∀ u ∈ t :: buildRun t.number ts,
          wellFormedTile u = true ∧ u.color = c :=
        fun u hu => hl u (hrun_sub.mem hu)
      have hnj : ∀ u ∈ t :: buildRun t.number ts, u.isJoker = false := by
        intro u hu
        obtain ⟨hwf, hucol⟩ := hmem u hu
        cases hj : u.isJoker with
        | false => rfl
        | true =>
          exfalso
          simp only [wellFormedTile, hj, if_true, beq_iff_eq] at hwf
          exact mem_fourColors_ne_joker hc (hucol.symm.trans hwf)
      have hnum_bounds : ∀ u ∈ t :: buildRun t.number ts,
          1 ≤ u.number ∧ u.number ≤ 13 := by
        intro u hu
        obtain ⟨hwf, _⟩ := hmem u hu
        have hj := hnj u hu
        simp only [wellFormedTile, hj, Bool.false_eq_true, if_false,
          Bool.and_eq_true, decide_eq_true_eq] at hwf
        exact ⟨hwf.1.1, hwf.1.2⟩
      have hmapnum : (t :: buildRun t.number ts).map (fun u => u.number) =
          intRange t.number (t :: buildRun t.number ts).length := by
        rw [List.map_cons, buildRun_map ts t.number, List.length_cons, intRange_succ]
      have hkr : t.number + ((t :: buildRun t.number ts).length : Int) ≤ 14 := by
        have hmm : t.number + ((t :: buildRun t.number ts).length : Int) - 1 ∈
            intRange t.number (t :: buildRun t.number ts).length := by
          rw [mem_intRange]
          constructor
          · have : 3 ≤ ((t :: buildRun t.number ts).length : Int) := by
              exact_mod_cast h3
            omega
          · omega
        rw [← hmapnum] at hmm
        obtain ⟨u, hu, hunum⟩ := List.mem_map.mp hmm
        have := (hnum_bounds u hu).2
        omega
      have hvalid : isValidSet (t :: buildRun t.number ts) = true :=
        isValidSet_run _ c t.number hmapnum h3 hnj
          (fun u hu => (hmem u hu).2)
          (hnum_bounds t (List.mem_cons_self _ _)).1 hkr
      by_cases hr2 : (tryPlaySet st (t :: buildRun t.number ts)).2 = true
      · rw [if_pos hr2]
        exact tryPlaySet_board_valid hb hvalid
      · rw [if_neg hr2]
        exact runPassColor_board_valid hc ts st hts hb
    · rw [if_neg h3]
      exact runPassColor_board_valid hc ts st hts hb

theorem runPassColor_hand_sublist : ∀ (l : List Tile) (st : AIState),
    (runPassColor st l).hand.Sublist st.hand
  | [], _ => List.Sublist.refl _
  | t :: ts, st => by
    unfold runPassColor
    dsimp only
    split_ifs with h3 hr2
    · exact tryPlaySet_hand_sublist st _
    · exact runPassColor_hand_sublist ts st
    · exact runPassColor_hand_sublist ts st

theorem runPass_board_valid {st : AIState}
    (hwf : ∀ t ∈ st.hand, wellFormedTile t = true)
    (hb : ∀ x ∈ st.board, isValidSet x = true) :
    ∀ x ∈ (runPass st).board, isValidSet x = true := by
  unfold runPass
  refine (foldl_preserve_mem
    (fun s => (∀ t ∈ s.hand, wellFormedTile t = true) ∧
      ∀ x ∈ s.board, isValidSet x = true)
    (fun s c => runPassColor s ((s.hand.filter fun t => t.color == c).insertionSort numLe))
    fourColors ?_ st ⟨hwf, hb⟩).2
  intro s c hcmem hP
  have hl : ∀ u ∈ (s.hand.filter fun t => t.color == c).insertionSort numLe,
      wellFormedTile u = true ∧ u.color = c := by
    intro u hu
    have hu' : u ∈ s.hand.filter fun t => t.color == c :=
      (List.mem_insertionSort numLe).mp hu
    have := List.mem_filter.mp hu'
    exact ⟨hP.1 u this.1, by simpa using this.2⟩
  refine ⟨?_, runPassColor_board_valid hcmem _ s hl hP.2⟩
  intro u hu
  exact hP.1 u ((runPassColor_hand_sublist _ s).mem hu)

theorem runPass_hand_sublist (st : AIState) :
    (runPass st).hand.Sublist st.hand := by
  unfold runPass
  exact foldl_preserve_mem (fun s => s.hand.Sublist st.hand)
    (fun s c => runPassColor s ((s.hand.filter fun t => t.color == c).insertionSort numLe))
    fourColors
    (fun s c _ hs => (runPassColor_hand_sublist _ s).trans hs)
    st (List.Sublist.refl _)

/-- Claim C4: starting from a well-formed hand and a board whose sets are
all valid, every set on the board returned by `aiPlayTurn` is valid:
new groups and runs are valid by construction and extensions are
re-checked with `isValidSet` on the augmented set. -/
theorem aiPlayTurn_board_valid_aux (st : AIState)
    (hwf : ∀ t ∈ st.hand, wellFormedTile t = true)
    (hvb : ∀ x ∈ st.board, isValidSet x = true) :
    (∀ x ∈ (runPass (groupPass st)).board, isValidSet x = true) ∧
    (∀ x ∈ (extendLoop (runPass (groupPass st)).board (runPass (groupPass st)).hand).1,
      isValidSet x = true) := by
  have hg_b := groupPass_board_valid hvb
  have hg_h := groupPass_hand_sublist st
  have hwf1 : ∀ t ∈ (groupPass st).hand, wellFormedTile t = true :=
    fun t ht => hwf t (hg_h.mem ht)
  have hr_b := runPass_board_valid hwf1 hg_b
  refine ⟨hr_b, ?_⟩
  unfold extendLoop
  obtain ⟨_, _, _, _, _, hval⟩ := extendLoopFuel_spec
    ((runPass (groupPass st)).hand.length + 1)
    (runPass (groupPass st)).board (runPass (groupPass st)).hand (by omega)
  exact hval hr_b

/-- Claim C4: starting from a well-formed hand and a board whose sets are
all valid, every set on the board returned by `aiPlayTurn` is valid:
new groups and runs are valid by construction and extensions are
re-checked with `isValidSet` on the augmented set. -/
theorem c4_board_valid (hand : List Tile) (board : List TileSet) (hasMeld : Bool)
    (hwf : ∀ t ∈ hand, wellFormedTile t = true)
    (hvb : ∀ s ∈ board, isValidSet s = true) :
    ∀ s ∈ (aiPlayTurn hand board hasMeld).newBoard, isValidSet s = true := by
  have h := aiPlayTurn_board_valid_aux ⟨hand, board, false, 0, hasMeld⟩ hwf hvb
  cases hm : (runPass (groupPass (⟨hand, board, false, 0, hasMeld⟩ : AIState))).meld with
  | true =>
    simp only [aiPlayTurn, hm, if_true]
    exact h.2
  | false =>
    simp only [aiPlayTurn, hm, Bool.false_eq_true, if_false]
    exact h.1

theorem c4_witness :
    ((aiPlayTurn
      [{ id := "Red-13-0", number := 13, color := .Red, isJoker := false },
       { id := "Blue-13-0", number := 13, color := .Blue, isJoker := false },
       { id := "Orange-13-0", number := 13, color := .Orange, isJoker := false }]
      [] false).newBoard.all fun s => isValidSet s) = true :=
  List.all_eq_true.mpr
    (c4_board_valid
      [{ id := "Red-13-0", number := 13, color := .Red, isJoker := false },
       { id := "Blue-13-0", number := 13, color := .Blue, isJoker := false },
       { id := "Orange-13-0", number := 13, color := .Orange, isJoker := false }]
      [] false (by decide) (by simp))

/-! ### Claim C3: tile conservation -/

theorem filter_by_ids_perm : ∀ {hand : List Tile} (s : List Tile),
    ((hand.map fun t => t.id).Nodup) → ((s.map fun t => t.id).Nodup) →
    (∀ u ∈ s, u ∈ hand) →
    (hand.filter fun t => s.any fun u => u.id == t.id).Perm s := by
  intro hand
  induction hand with
  | nil =>
    intro s _ _ hsub
    have hse : s = [] := by
      cases s with
      | nil => rfl
      | cons u us => exact absurd (hsub u (List.mem_cons_self u us)) (by simp)
    subst hse
    exact List.Perm.refl _
  | cons t hs ih =>
    intro s hnh hns hsub
    rw [List.map_cons, List.nodup_cons] at hnh
    obtain ⟨htid, hnh'⟩ := hnh
    by_cases hmem : (s.any fun u => u.id == t.id) = true
    · obtain ⟨u, hu, huid⟩ : ∃ u ∈ s, u.id = t.id := by
        obtain ⟨u, hu, he⟩ := List.any_eq_true.mp hmem
        exact ⟨u, hu, by simpa using he⟩
      have hut : u = t := by
        rcases List.mem_cons.mp (hsub u hu) with h | hu_hs
        · exact h
        · exact absurd (huid ▸ List.mem_map.mpr ⟨u, hu_hs, rfl⟩) htid
      subst hut
      have hs_vals_nodup : s.Nodup := List.Nodup.of_map _ hns
      rw [@List.filter_cons_of_pos Tile (fun t => s.any fun v => v.id == t.id) u hs hmem]
      have hfeq : (hs.filter fun x => s.any fun v => v.id == x.id) =
          hs.filter fun x => (s.erase u).any fun v => v.id == x.id := by
        apply List.filter_congr
        intro x hx
        have hxid : x.id ≠ u.id := fun he => htid (he ▸ List.mem_map.mpr ⟨x, hx, rfl⟩)
        by_cases hxs : (s.any fun v => v.id == x.id) = true
        · obtain ⟨v, hv, hvid⟩ := List.any_eq_true.mp hxs
          have hvid' : v.id = x.id := by simpa using hvid
          have hvne : v ≠ u := fun he => hxid (by rw [← hvid', he])
          have hv' : v ∈ s.erase u :=
            (hs_vals_nodup.mem_erase_iff).mpr ⟨hvne, hv⟩
          rw [hxs]
          symm
          rw [List.any_eq_true]
          exact ⟨v, hv', by simp [hvid']⟩
        · have h2 : ((s.erase u).any fun v => v.id == x.id) = false := by
            rw [List.any_eq_false]
            intro v hv
            exact List.any_eq_false.mp (Bool.eq_false_iff.mpr hxs) v
              ((List.erase_sublist u s).mem hv)
          rw [Bool.eq_false_iff.mpr hxs, h2]
      rw [hfeq]
      have ihapp := ih (s.erase u)
        hnh'
        (((List.erase_sublist u s).map (fun t => t.id)).nodup hns)
        (by
          intro v hv
          have hvprop := (hs_vals_nodup.mem_erase_iff).mp hv
          rcases List.mem_cons.mp (hsub v hvprop.2) with h | h
          · exact absurd h hvprop.1
          · exact h)
      exact (ihapp.cons u).trans (List.perm_cons_erase hu).symm
    · rw [@List.filter_cons_of_neg Tile (fun t => s.any fun v => v.id == t.id) t hs hmem]
      apply ih s hnh' hns
      intro u hu
      rcases List.mem_cons.mp (hsub u hu) with h | h
      · exact absurd (List.any_eq_true.mpr ⟨u, hu, by simp [h]⟩) hmem
      · exact h

theorem filter_keep_append_perm {hand s : List Tile}
    (hnh : (hand.map fun t => t.id).Nodup) (hns : (s.map fun t => t.id).Nodup)
    (hsub : ∀ u ∈ s, u ∈ hand) :
    ((hand.filter fun t => !(s.any fun u => u.id == t.id)) ++ s).Perm hand := by
  have h1 := List.filter_append_perm (fun t => !(s.any fun u => u.id == t.id)) hand
  have h2 : (hand.filter fun t => !!(s.any fun u => u.id == t.id)) =
      hand.filter fun t => s.any fun u => u.id == t.id :=
    List.filter_congr fun x _ => by simp
  rw [h2] at h1
  exact (List.Perm.append_left _ (filter_by_ids_perm s hnh hns hsub).symm).trans h1

theorem tryPlaySet_conserve {st : AIState} {s : TileSet}
    (hh : (st.hand.map fun t => t.id).Nodup)
    (hns : (s.map fun t => t.id).Nodup)
    (hsub : ∀ u ∈ s, u ∈ st.hand) :
    ((tryPlaySet st s).1.hand ++ (tryPlaySet st s).1.board.flatten).Perm
      (st.hand ++ st.board.flatten) := by
  unfold tryPlaySet
  dsimp only
  split_ifs with h
  · dsimp only
    rw [List.flatten_append, List.flatten_cons, List.flatten_nil, List.append_nil]
    refine (List.Perm.append_left _ List.perm_append_comm).trans ?_
    rw [← List.append_assoc]
    exact (filter_keep_append_perm hh hns hsub).append_right st.board.flatten
  · exact List.Perm.refl _

theorem tryPlaySet_hand_keep {st : AIState} {cand : TileSet} {t : Tile}
    (hh : (st.hand.map fun x => x.id).Nodup)
    (hcand_sub : ∀ u ∈ cand, u ∈ st.hand)
    (ht : t ∈ st.hand)
    (hne : ∀ u ∈ cand, u ≠ t) :
    t ∈ (tryPlaySet st cand).1.hand := by
  unfold tryPlaySet
  dsimp only
  split_ifs with h
  · dsimp only
    refine List.mem_filter.mpr ⟨ht, ?_⟩
    simp only [Bool.not_eq_true']
    rw [List.any_eq_false]
    intro u hu
    simp only [beq_iff_eq]
    intro he
    exact hne u hu (List.inj_on_of_nodup_map hh (hcand_sub u hu) ht he)
  · exact ht

theorem groupStep_shape (h1 : List Tile) (st : AIState) (n : Int)
    (hn1 : (h1.map fun t => t.id).Nodup)
    (hh : (st.hand.map fun t => t.id).Nodup)
    (hinv : ∀ t ∈ h1, t.isJoker = false → t.number = n → t ∈ st.hand) :
    groupStep h1 st n = st ∨
    ∃ cand, groupStep h1 st n = (tryPlaySet st cand).1 ∧
      ((cand.map fun t => t.id).Nodup) ∧
      (∀ u ∈ cand, u ∈ st.hand) ∧
      (∀ u ∈ cand, u.isJoker = true ∨ u.number = n) := by
  have hmem_of_nt : ∀ u ∈ numTiles h1 n, u ∈ st.hand := fun u hu => by
    obtain ⟨h1m, hj, hnum⟩ := numTiles_spec hu
    exact hinv u h1m hj hnum
  unfold groupStep
  dsimp only
  split_ifs with h3 h2
  · right
    have hsub3 : ((uniqueByColor (numTiles h1 n) []).take 3).Sublist (numTiles h1 n) :=
      (List.take_sublist _ _).trans (uniqueByColor_sublist _ _)
    refine ⟨_, rfl, ?_, ?_, ?_⟩
    · exact ((hsub3.trans (List.filter_sublist h1)).map (fun t => t.id)).nodup hn1
    · exact fun u hu => hmem_of_nt u (hsub3.mem hu)
    · exact fun u hu => Or.inr (numTiles_spec (hsub3.mem hu)).2.2
  · cases hfind : st.hand.find? fun t => t.isJoker with
    | none => exact Or.inl rfl
    | some j =>
      right
      dsimp only
      have hsub2 : ((uniqueByColor (numTiles h1 n) []).take 2).Sublist (numTiles h1 n) :=
        (List.take_sublist _ _).trans (uniqueByColor_sublist _ _)
      have hjmem : j ∈ st.hand := List.mem_of_find?_eq_some hfind
      have hjjok : j.isJoker = true := List.find?_some hfind
      refine ⟨_, rfl, ?_, ?_, ?_⟩
      · rw [List.map_append]
        refine List.Nodup.append
          (((hsub2.trans (List.filter_sublist h1)).map (fun t => t.id)).nodup hn1)
          (by simp) ?_
        rw [List.disjoint_left]
        intro a ha hb
        obtain ⟨x, hx, hxid⟩ := List.mem_map.mp ha
        have hjid : a = j.id := by simpa using hb
        have hxj : x = j := by
          refine List.inj_on_of_nodup_map hh (hmem_of_nt x (hsub2.mem hx)) hjmem ?_
          rw [hxid, hjid]
        have := (numTiles_spec (hsub2.mem hx)).2.1
        rw [hxj, hjjok] at this
        cases this
      · intro u hu
        rcases List.mem_append.mp hu with hu' | hu'
        · exact hmem_of_nt u (hsub2.mem hu')
        · rw [List.mem_singleton.mp hu']
          exact hjmem
      · intro u hu
        rcases List.mem_append.mp hu with hu' | hu'
        · exact Or.inr (numTiles_spec (hsub2.mem hu')).2.2
        · rw [List.mem_singleton.mp hu']
          exact Or.inl hjjok
  · exact Or.inl rfl

theorem groupFold_conserve (h1 : List Tile) :
    ∀ (nums : List Int) (st : AIState),
    nums.Nodup →
    ((h1.map fun t => t.id).Nodup) →
    ((st.hand.map fun t => t.id).Nodup) →
    (∀ n ∈ nums, ∀ t ∈ h1, t.isJoker = false → t.number = n → t ∈ st.hand) →
    ((nums.foldl (groupStep h1) st).hand ++
      (nums.foldl (groupStep h1) st).board.flatten).Perm
      (st.hand ++ st.board.flatten)
  | [], st, _, _, _, _ => List.Perm.refl _
  | n :: nums, st, hnn, hn1, hh, hinv => by
    rw [List.foldl_cons]
    rw [List.nodup_cons] at hnn
    have hshape := groupStep_shape h1 st n hn1 hh
      (fun t ht hj hnum => hinv n (List.mem_cons_self n nums) t ht hj hnum)
    have hh' : ((groupStep h1 st n).hand.map fun t => t.id).Nodup :=
      ((groupStep_hand_sublist h1 st n).map (fun t => t.id)).nodup hh
    have hinv' : ∀ m ∈ nums, ∀ t ∈ h1, t.isJoker = false → t.number = m →
        t ∈ (groupStep h1 st n).hand := by
      intro m hm t ht hj hnum
      have htst : t ∈ st.hand := hinv m (List.mem_cons_of_mem n hm) t ht hj hnum
      rcases hshape with heq | ⟨cand, heq, hcn, hcs, hcp⟩
      · rw [heq]; exact htst
      · rw [heq]
        refine tryPlaySet_hand_keep hh hcs htst ?_
        intro u hu hut
        rcases hcp u hu with hjok | hun
        · rw [hut, hj] at hjok; cases hjok
        · rw [hut, hnum] at hun
          exact hnn.1 (hun ▸ hm)
    have hstep : ((groupStep h1 st n).hand ++ (groupStep h1 st n).board.flatten).Perm
        (st.hand ++ st.board.flatten) := by
      rcases hshape with heq | ⟨cand, heq, hcn, hcs, hcp⟩
      · rw [heq]
      · rw [heq]
        exact tryPlaySet_conserve hh hcn hcs
    exact (groupFold_conserve h1 nums (groupStep h1 st n) hnn.2 hn1 hh' hinv').trans hstep

theorem groupPass_conserve {st : AIState}
    (hh : (st.hand.map fun t => t.id).Nodup) :
    ((groupPass st).hand ++ (groupPass st).board.flatten).Perm
      (st.hand ++ st.board.flatten) := by
  unfold groupPass
  exact groupFold_conserve st.hand (groupNums st.hand) st
    (((List.perm_insertionSort _ _).nodup_iff).mpr (List.nodup_dedup _))
    hh hh (fun n _ t ht _ _ => ht)

theorem runPassColor_conserve : ∀ (l : List Tile) (st : AIState),
    ((st.hand.map fun t => t.id).Nodup) →
    ((l.map fun t => t.id).Nodup) →
    (∀ t ∈ l, t ∈ st.hand) →
    ((runPassColor st l).hand ++ (runPassColor st l).board.flatten).Perm
      (st.hand ++ st.board.flatten)
  | [], _, _, _, _ => List.Perm.refl _
  | t :: ts, st, hh, hl, hsub => by
    have hlts : ((ts.map fun t => t.id).Nodup) := by
      rw [List.map_cons, List.nodup_cons] at hl
      exact hl.2
    have hsubts : ∀ u ∈ ts, u ∈ st.hand :=
      fun u hu => hsub u (List.mem_cons_of_mem t hu)
    unfold runPassColor
    dsimp only
    by_cases h3 : 3 ≤ (t :: buildRun t.number ts).length
    · rw [if_pos h3]
      have hrun_sub : (t :: buildRun t.number ts).Sublist (t :: ts) :=
        List.cons_sublist_cons.mpr (buildRun_sublist ts t.number)
      by_cases hr2 : (tryPlaySet st (t :: buildRun t.number ts)).2 = true
      · rw [if_pos hr2]
        exact tryPlaySet_conserve hh
          ((hrun_sub.map (fun t => t.id)).nodup hl)
          (fun u hu => hsub u (hrun_sub.mem hu))
      · rw [if_neg hr2]
        exact runPassColor_conserve ts st hh hlts hsubts
    · rw [if_neg h3]
      exact runPassColor_conserve ts st hh hlts hsubts

theorem runFold_conserve : ∀ (cs : List TileColor) (st : AIState),
    ((st.hand.map fun t => t.id).Nodup) →
    ((cs.foldl (fun s c =>
        runPassColor s ((s.hand.filter fun t => t.color == c).insertionSort numLe)) st).hand ++
      (cs.foldl (fun s c =>
        runPassColor s ((s.hand.filter fun t => t.color == c).insertionSort numLe)) st).board.flatten).Perm
      (st.hand ++ st.board.flatten)
  | [], _, _ => List.Perm.refl _
  | c :: cs, st, hh => by
    rw [List.foldl_cons]
    have hlnodup : (((st.hand.filter fun t => t.color == c).insertionSort numLe).map
        (fun t => t.id)).Nodup :=
      (((List.perm_insertionSort numLe _).map (fun t => t.id)).nodup_iff).mpr
        (((List.filter_sublist st.hand).map (fun t => t.id)).nodup hh)
    have hlsub : ∀ u ∈ (st.hand.filter fun t => t.color == c).insertionSort numLe,
        u ∈ st.hand :=
      fun u hu => (List.mem_filter.mp ((List.mem_insertionSort numLe).mp hu)).1
    have hstep := runPassColor_conserve _ st hh hlnodup hlsub
    have hh' : (((runPassColor st
        ((st.hand.filter fun t => t.color == c).insertionSort numLe)).hand.map
        (fun t => t.id)).Nodup) :=
      ((runPassColor_hand_sublist _ st).map (fun t => t.id)).nodup hh
    exact (runFold_conserve cs _ hh').trans hstep

theorem runPass_conserve {st : AIState}
    (hh : (st.hand.map fun t => t.id).Nodup) :
    ((runPass st).hand ++ (runPass st).board.flatten).Perm
      (st.hand ++ st.board.flatten) := by
  unfold runPass
  exact runFold_conserve fourColors st hh

theorem extendLoop_conserve (b : List TileSet) (h : List Tile) :
    ((extendLoop b h).2.1 ++ (extendLoop b h).1.flatten).Perm (h ++ b.flatten) := by
  unfold extendLoop
  obtain ⟨moved, _, _, hp1, hp2, _⟩ := extendLoopFuel_spec (h.length + 1) b h (by omega)
  refine ((List.Perm.append_left _ hp2).trans ?_)
  rw [← List.append_assoc]
  exact hp1.symm.append_right b.flatten

/-- Claim C3: on inputs whose tiles carry pairwise distinct ids,
`aiPlayTurn` conserves tiles: the multiset of the returned hand together
with all returned board sets equals the multiset of the input hand with
all input board sets. -/
theorem c3_conservation (hand : List Tile) (board : List TileSet) (hasMeld : Bool)
    (hids : ((hand ++ board.flatten).map fun t => t.id).Nodup) :
    ((aiPlayTurn hand board hasMeld).newHand ++
      (aiPlayTurn hand board hasMeld).newBoard.flatten).Perm
      (hand ++ board.flatten) := by
  have hh : (hand.map fun t => t.id).Nodup := by
    rw [List.map_append] at hids
    exact hids.of_append_left
  have hg := @groupPass_conserve ⟨hand, board, false, 0, hasMeld⟩ hh
  have hh1 : ((groupPass (⟨hand, board, false, 0, hasMeld⟩ : AIState)).hand.map
      (fun t => t.id)).Nodup :=
    ((groupPass_hand_sublist _).map (fun t => t.id)).nodup hh
  have hr := runPass_conserve hh1
  cases hm : (runPass (groupPass (⟨hand, board, false, 0, hasMeld⟩ : AIState))).meld with
  | true =>
    simp only [aiPlayTurn, hm, if_true]
    exact ((extendLoop_conserve _ _).trans hr).trans hg
  | false =>
    simp only [aiPlayTurn, hm, Bool.false_eq_true, if_false]
    exact hr.trans hg

theorem c3_witness :
    ((aiPlayTurn
      [{ id := "Red-13-0", number := 13, color := .Red, isJoker := false },
       { id := "Blue-13-0", number := 13, color := .Blue, isJoker := false },
       { id := "Orange-13-0", number := 13, color := .Orange, isJoker := false }]
      [[{ id := "Red-5-0", number := 5, color := .Red, isJoker := false },
        { id := "Red-6-0", number := 6, color := .Red, isJoker := false },
        { id := "Red-7-0", number := 7, color := .Red, isJoker := false }]]
      false).newHand ++
      (aiPlayTurn
      [{ id := "Red-13-0", number := 13, color := .Red, isJoker := false },
       { id := "Blue-13-0", number := 13, color := .Blue, isJoker := false },
       { id := "Orange-13-0", number := 13, color := .Orange, isJoker := false }]
      [[{ id := "Red-5-0", number := 5, color := .Red, isJoker := false },
        { id := "Red-6-0", number := 6, color := .Red, isJoker := false },
        { id := "Red-7-0", number := 7, color := .Red, isJoker := false }]]
      false).newBoard.flatten).Perm
      ([{ id := "Red-13-0", number := 13, color := .Red, isJoker := false },
        { id := "Blue-13-0", number := 13, color := .Blue, isJoker := false },
        { id := "Orange-13-0", number := 13, color := .Orange, isJoker := false }] ++
       [[{ id := "Red-5-0", number := 5, color := .Red, isJoker := false },
         { id := "Red-6-0", number := 6, color := .Red, isJoker := false },
         { id := "Red-7-0", number := 7, color := .Red, isJoker := false }]].flatten) :=
  c3_conservation _ _ false (by decide)

end Rummikub
